import Mathlib

/-!
Verification development for the zkVM memory subsystem:
fixed-width numeric base (`base.rs`), the RAM machine byte store,
and the original-memory ordering circuit
(`constraints/original_memory_circuit.rs`).

Machine integers are embedded as `Nat` with explicit `% 256 ^ S`
(S = width in bytes) where the source relies on fixed-width
wraparound; the prime field of the circuit is embedded as an
arbitrary `Field F`.
-/

namespace ZkMem

/-! ### Byte encodings (`base.rs`)

`u*::to_le_bytes` / `to_be_bytes` / `from_be_bytes` and the
`ethnum::U256` equivalents, for a value of `S` bytes. -/

/-- Little-endian byte decomposition of `v` into `S` bytes:
the semantics of `to_le_bytes` on an `S`-byte unsigned integer. -/
def leBytesN : ℕ → ℕ → List ℕ
  | 0, _ => []
  | S + 1, v => v % 256 :: leBytesN S (v / 256)

/-- Big-endian byte decomposition of `v` into `S` bytes (most
significant byte first): the semantics of `to_be_bytes`. -/
def beBytesN : ℕ → ℕ → List ℕ
  | 0, _ => []
  | S + 1, v => v / 256 ^ S :: beBytesN S (v % 256 ^ S)

/-- Recombination of a big-endian byte list into a number:
the semantics of `from_be_bytes`. -/
def fromBeBytes (l : List ℕ) : ℕ :=
  l.foldl (fun acc b => acc * 256 + b) 0

/-- `buf[start..start+src.len()].copy_from_slice(src)` on a byte buffer. -/
def copyFromSlice (buf : List ℕ) (start : ℕ) (src : List ℕ) : List ℕ :=
  buf.take start ++ src ++ buf.drop (start + src.length)

/-- `fixed_be_bytes` from `base.rs`: a 32-byte zero buffer whose last
`S` bytes are overwritten with the big-endian bytes of the value
(`buf[32 - S..].copy_from_slice(&self.0.to_be_bytes())`; for the
256-bit width this degenerates to `to_be_bytes` itself). -/
def fixed_be_bytes (S v : ℕ) : List ℕ :=
  copyFromSlice (List.replicate 32 0) (32 - S) (beBytesN S v)

/-- `fixed_le_bytes` from `base.rs`: a 32-byte zero buffer whose first
`S` bytes are overwritten with the little-endian bytes of the value
(`buf[..S].copy_from_slice(&self.0.to_le_bytes())`). -/
def fixed_le_bytes (S v : ℕ) : List ℕ :=
  copyFromSlice (List.replicate 32 0) 0 (leBytesN S v)

/-- The byte widths instantiated by the `new_base!` macro in `base.rs`:
`U256`, `u128`, `u64`, `u32`, `u16`. -/
def supportedWidths : List ℕ := [2, 4, 8, 16, 32]

/-- `Add for Uint<T>`: `self.0 + rhs.0` at `S` bytes, with the width's
natural wraparound (for the 256-bit width, modulo `2 ^ 256`). -/
def Uint.add (S a b : ℕ) : ℕ := (a + b) % 256 ^ S

/-- `Sub for Uint<T>`: wrapping subtraction at `S` bytes. -/
def Uint.sub (S a b : ℕ) : ℕ := (a + (256 ^ S - b)) % 256 ^ S

/-- `Mul for Uint<T>`: wrapping multiplication at `S` bytes. -/
def Uint.mul (S a b : ℕ) : ℕ := (a * b) % 256 ^ S

/-- `Div for Uint<T>`: `self.0 / rhs.0` (no wrap possible). -/
def Uint.div (_S a b : ℕ) : ℕ := a / b

/-- `Rem for Uint<T>`: `self.0 % rhs.0`. -/
def Uint.rem (_S a b : ℕ) : ℕ := a % b

/-- `From<i32> for Uint<...>`: `value as $primitive`, a two's-complement
truncating cast to `S` bytes; the 256-bit width instead goes through
`U256::new(value as u128)`, i.e. reduction modulo `2 ^ 128`. -/
def from_i32 (S : ℕ) (v : ℤ) : ℕ :=
  if S = 32 then (v % (2 : ℤ) ^ 128).toNat else (v % (256 : ℤ) ^ S).toNat

/-- `From<Uint<...>> for i32`: `value.0 as i32` (resp. `as_i32`), the
low 32 bits reinterpreted as a signed integer. -/
def to_i32 (_S : ℕ) (n : ℕ) : ℤ :=
  if n % 2 ^ 32 < 2 ^ 31 then (n % 2 ^ 32 : ℤ) else (n % 2 ^ 32 : ℤ) - 2 ^ 32

/-- `From<usize> for Uint<...>`: `value as $primitive` (usize is 64-bit);
the 256-bit width goes through `U256::new(value as u128)`. -/
def from_usize (S : ℕ) (u : ℕ) : ℕ :=
  if S = 32 then u % 2 ^ 128 else u % 256 ^ S

/-- `From<Uint<...>> for usize`: `value.0 as usize` (resp. `as_usize`),
truncation to the low 64 bits. -/
def to_usize (_S : ℕ) (n : ℕ) : ℕ := n % 2 ^ 64

/-- `From<u64> for Uint<...>`: `value as $primitive`; the 256-bit width
goes through `U256::new(value as u128)`. -/
def from_u64 (S : ℕ) (u : ℕ) : ℕ :=
  if S = 32 then u % 2 ^ 128 else u % 256 ^ S

/-- `From<Uint<...>> for u64`: `value.0 as u64` (resp. `as_u64`),
truncation to the low 64 bits. -/
def to_u64 (_S : ℕ) (n : ℕ) : ℕ := n % 2 ^ 64

section Circuit

variable (F : Type) [Field F] [DecidableEq F]

/-- `ConvertedTraceRecord<F>` from the gadgets module, as exercised by
the circuit and its tests: the address as 32 one-byte field limbs, the
time as 8 one-byte field limbs, the instruction as one field element,
the value as 32 one-byte field limbs. -/
structure ConvertedTraceRecord where
  address : List F
  time_log : List F
  instruction : F
  value : List F

/-- Witness values assigned to the columns of `GreaterThanConfig`
(`difference`, `difference_inverse`, `first_difference_limb`) by
`original_memory_assign` at offsets `i ≥ 1`. -/
structure GreaterThanWitness where
  difference : F
  difference_inverse : F
  first_difference_limb : ℕ

/-- One assigned row of the witness table of `OriginalMemoryCircuit`:
the re-committed record limbs, the fixed `selector` value, whether the
`selector_zero` selector was enabled at this row, and the greater-than
gadget witness (absent at offset 0). -/
structure RowWitness where
  address : List F
  time_log : List F
  instruction : F
  value : List F
  selector_zero : Bool
  selector : F
  greater_than : Option (GreaterThanWitness F)

/-- Outcome of one call to `original_memory_assign`: a successful
assignment, a recoverable `Err` (the `Result::Err` channel of the Rust
signature), or a non-recoverable panic (`expect`). -/
inductive AssignResult where
  | ok (row : RowWitness F)
  | err (e : String)
  | panic (msg : String)

variable {F}

/-- Placeholder record used only to give `List.getD` a default; the
source indexes the trace directly and the theorems below always keep
the offset in range. -/
def dummyRecord : ConvertedTraceRecord F := ⟨[], [], 0, []⟩

/-- The limb scan of `original_memory_assign` (lines 210–216): the limb
vector `(0..8)` is zipped with the current and previous time limbs and
`find` returns the first position where they differ, together with the
two differing limbs. -/
def findFirstDiff : ℕ → List F → List F → Option (ℕ × F × F)
  | i, x :: xs, y :: ys =>
    if x = y then findFirstDiff (i + 1) xs ys else some (i, x, y)
  | _, _, _ => none

/-- The boundary-gate polynomial of `OriginalMemoryConfig::configure`
(lines 56–64): starting from `time_log[0]`, fold the remaining limbs as
`time * 256 + t` (big-endian Horner recombination). -/
def hornerTime : List F → F
  | [] => 0
  | t0 :: rest => rest.foldl (fun acc t => acc * (256 : F) + t) t0

/-- `original_memory_assign` from `original_memory_circuit.rs`.
At offset 0 the row is assigned directly and `selector_zero` is
enabled.  At offset `≥ 1` the first differing time limb is located; the
field difference `cur - prev` and its inverse are witnessed.  When the
two time-limb arrays are equal: under `cfg!(test)` the `unwrap_or`
fallback makes the difference `0` so `invert().expect("cannot find
inverse")` panics, and otherwise `expect("two trace records cannot have
equal time log")` panics directly — both are panics, never `Err`. -/
def original_memory_assign (cfgTest : Bool)
    (trace : List (ConvertedTraceRecord F)) (offset : ℕ) : AssignResult F :=
  if offset = 0 then
    let cur := trace.getD 0 dummyRecord
    AssignResult.ok
      { address := cur.address, time_log := cur.time_log,
        instruction := cur.instruction, value := cur.value,
        selector_zero := true, selector := 0, greater_than := none }
  else
    let cur := trace.getD offset dummyRecord
    let prev := trace.getD (offset - 1) dummyRecord
    match findFirstDiff 0 cur.time_log prev.time_log with
    | some (index, cur_limb, prev_limb) =>
      let difference := cur_limb - prev_limb
      if difference = 0 then AssignResult.panic "cannot find inverse"
      else
        AssignResult.ok
          { address := cur.address, time_log := cur.time_log,
            instruction := cur.instruction, value := cur.value,
            selector_zero := false, selector := 1,
            greater_than := some ⟨difference, difference⁻¹, index⟩ }
    | none =>
      if cfgTest then AssignResult.panic "cannot find inverse"
      else AssignResult.panic "two trace records cannot have equal time log"

/-- Modelled from the spec: the gate constraints of the greater-than
gadget live in the gadgets module, which is not under `src/`; §4.4
specifies the certificate over `L` big-endian limbs: a first-differing
index `k`, equality of all limbs before `k`, a nonzero field difference
at `k` (certified by its inverse), and a size-256 table check placing
the difference in the byte range. -/
def gtCertL (L : ℕ) (prev cur : List F) : Prop :=
  ∃ k, k < L ∧ List.take k cur = List.take k prev ∧
    cur.getD k 0 - prev.getD k 0 ≠ 0 ∧
    ∃ d : ℕ, d < 256 ∧ cur.getD k 0 - prev.getD k 0 = (d : F)

/-- The greater-than certificate at the circuit's limb count (8 time
limbs). -/
def gtCert (prev cur : List F) : Prop := gtCertL 8 prev cur

/-- The boundary gate over the time-limb column: active only on the
first record, where the Horner recombination must vanish; an empty
trace triggers no gate. -/
def boundaryZero (trace : List (List F)) : Prop :=
  match trace with
  | [] => True
  | t0 :: _ => hornerTime t0 = 0

/-- Satisfiability of the ordering circuit over the time-limb columns:
the boundary gate at offset 0 (from the source) and, modelled from the
spec (§4.4/§4.5), the greater-than certificate between every pair of
consecutive records. -/
def validTrace (trace : List (List F)) : Prop :=
  boundaryZero trace ∧ List.Chain' gtCert trace

/-- Modelled from the spec (§3): the field-element trace record encodes
the native `time_log` as `L` big-endian one-byte limbs cast into the
field (the record conversion lives in the gadgets module, not under
`src/`); the circuit uses `L = 8`. -/
def timeLimbs (F : Type) [Field F] (L m : ℕ) : List F :=
  (beBytesN L m).map (Nat.cast : ℕ → F)

end Circuit

/-- Modelled from the spec (§4.2): the RAM machine's sparse byte store
(module `ram_machine`, not under `src/`), a mapping from byte offset to
byte value where unobserved offsets read as zero. -/
def MemState : Type := ℕ → ℕ

/-- The all-zero initial store of a fresh machine. -/
def emptyMem : MemState := fun _ => 0

/-- Modelled from the spec (§4.2): `write(address, value)` decomposes
the value into `W` big-endian bytes and stores them at consecutive byte
offsets `[addr, addr + W)`, overwriting previous contents; no alignment
requirement. -/
def writeMem (W : ℕ) (mem : MemState) (addr v : ℕ) : MemState :=
  fun a =>
    if addr ≤ a ∧ a < addr + W then (beBytesN W v).getD (a - addr) 0
    else mem a

/-- Modelled from the spec (§4.2): `read(address)` gathers `W`
consecutive bytes starting at the address and reassembles them
big-endian. -/
def readMem (W : ℕ) (mem : MemState) (addr : ℕ) : ℕ :=
  fromBeBytes ((List.range W).map (fun i => mem (addr + i)))

end ZkMem

namespace ZkMem

theorem leBytesN_length : ∀ S v, (leBytesN S v).length = S := by
  intro S
  induction S with
  | zero => intro v; rfl
  | succ n ih => intro v; simp [leBytesN, ih]

theorem beBytesN_length : ∀ S v, (beBytesN S v).length = S := by
  intro S
  induction S with
  | zero => intro v; rfl
  | succ n ih => intro v; simp [beBytesN, ih]

theorem beBytesN_snoc :
    ∀ S v, v < 256 ^ (S + 1) →
      beBytesN (S + 1) v = beBytesN S (v / 256) ++ [v % 256] := by
  intro S
  induction S with
  | zero =>
    intro v hv
    have hlt : v < 256 := by simpa using hv
    have : v % 256 = v := Nat.mod_eq_of_lt hlt
    simp [beBytesN, this]
  | succ n ih =>
    intro v hv
    have h1 : v % 256 ^ (n + 1) < 256 ^ (n + 1) :=
      Nat.mod_lt _ (by positivity)
    have h2 : beBytesN (n + 1) (v % 256 ^ (n + 1)) =
        beBytesN n (v % 256 ^ (n + 1) / 256) ++ [v % 256 ^ (n + 1) % 256] :=
      ih _ h1
    have h3 : v % 256 ^ (n + 1) % 256 = v % 256 := by
      have : (256 : ℕ) ∣ 256 ^ (n + 1) := dvd_pow_self 256 (Nat.succ_ne_zero n)
      exact Nat.mod_mod_of_dvd v this
    have h4 : v / 256 ^ (n + 1) = v / 256 / 256 ^ n := by
      rw [Nat.div_div_eq_div_mul, pow_succ, mul_comm]
    have h5 : v % 256 ^ (n + 1) / 256 = v / 256 % 256 ^ n := by
      rw [pow_succ, mul_comm]
      exact Nat.mod_mul_right_div_self v 256 (256 ^ n)
    calc beBytesN (n + 1 + 1) v
        = v / 256 ^ (n + 1) :: beBytesN (n + 1) (v % 256 ^ (n + 1)) := rfl
      _ = v / 256 / 256 ^ n :: (beBytesN n (v / 256 % 256 ^ n) ++ [v % 256]) := by
          rw [h2, h3, h4, h5]
      _ = beBytesN (n + 1) (v / 256) ++ [v % 256] := rfl

theorem beBytesN_eq_reverse_leBytesN :
    ∀ S v, v < 256 ^ S → beBytesN S v = (leBytesN S v).reverse := by
  intro S
  induction S with
  | zero => intro v _; rfl
  | succ n ih =>
    intro v hv
    have hdiv : v / 256 < 256 ^ n := by
      rw [Nat.div_lt_iff_lt_mul (by norm_num : 0 < 256)]
      calc v < 256 ^ (n + 1) := hv
        _ = 256 ^ n * 256 := by ring
    rw [beBytesN_snoc n v hv, ih _ hdiv]
    simp [leBytesN]

theorem foldl_byte_shift :
    ∀ (l : List ℕ) (a : ℕ),
      l.foldl (fun acc b => acc * 256 + b) a = a * 256 ^ l.length + fromBeBytes l := by
  intro l
  induction l with
  | nil => intro a; simp [fromBeBytes]
  | cons b t ih =>
    intro a
    have hb : fromBeBytes (b :: t) = b * 256 ^ t.length + fromBeBytes t := by
      show List.foldl (fun acc x => acc * 256 + x) 0 (b :: t) = _
      simp only [List.foldl_cons]
      rw [ih (0 * 256 + b)]
      ring_nf
    simp only [List.foldl_cons, List.length_cons]
    rw [ih (a * 256 + b), hb]
    ring

theorem fromBeBytes_cons (b : ℕ) (t : List ℕ) :
    fromBeBytes (b :: t) = b * 256 ^ t.length + fromBeBytes t := by
  show List.foldl (fun acc x => acc * 256 + x) 0 (b :: t) = _
  simp only [List.foldl_cons]
  rw [foldl_byte_shift t (0 * 256 + b)]
  ring_nf

theorem fromBeBytes_lt :
    ∀ l : List ℕ, (∀ b ∈ l, b < 256) → fromBeBytes l < 256 ^ l.length := by
  intro l
  induction l with
  | nil => intro _; simp [fromBeBytes]
  | cons b t ih =>
    intro h
    have hb : b < 256 := h b (List.mem_cons_self b t)
    have ht : fromBeBytes t < 256 ^ t.length :=
      ih fun x hx => h x (List.mem_cons_of_mem b hx)
    rw [fromBeBytes_cons]
    calc b * 256 ^ t.length + fromBeBytes t
        < b * 256 ^ t.length + 256 ^ t.length := by omega
      _ = (b + 1) * 256 ^ t.length := by ring
      _ ≤ 256 * 256 ^ t.length := by
          apply Nat.mul_le_mul_right
          omega
      _ = 256 ^ (b :: t).length := by
          simp [List.length_cons]
          ring

theorem fromBe_beBytesN :
    ∀ S v, v < 256 ^ S → fromBeBytes (beBytesN S v) = v := by
  intro S
  induction S with
  | zero =>
    intro v hv
    interval_cases v
    rfl
  | succ n ih =>
    intro v hv
    have hmod : v % 256 ^ n < 256 ^ n := Nat.mod_lt _ (by positivity)
    show fromBeBytes (v / 256 ^ n :: beBytesN n (v % 256 ^ n)) = v
    rw [fromBeBytes_cons, beBytesN_length, ih _ hmod]
    exact Nat.div_add_mod' v (256 ^ n)

theorem beBytesN_fromBe :
    ∀ l : List ℕ, (∀ b ∈ l, b < 256) → beBytesN l.length (fromBeBytes l) = l := by
  intro l
  induction l with
  | nil => intro _; rfl
  | cons b t ih =>
    intro h
    have hb : b < 256 := h b (List.mem_cons_self b t)
    have htb : ∀ x ∈ t, x < 256 := fun x hx => h x (List.mem_cons_of_mem b hx)
    have ht : fromBeBytes t < 256 ^ t.length := fromBeBytes_lt t htb
    rw [fromBeBytes_cons]
    show beBytesN (t.length + 1) (b * 256 ^ t.length + fromBeBytes t) = b :: t
    have hhead : (b * 256 ^ t.length + fromBeBytes t) / 256 ^ t.length = b := by
      rw [mul_comm, Nat.mul_add_div (by positivity : (0:ℕ) < 256 ^ t.length),
        Nat.div_eq_of_lt ht, Nat.add_zero]
    have htail : (b * 256 ^ t.length + fromBeBytes t) % 256 ^ t.length = fromBeBytes t := by
      rw [mul_comm, Nat.mul_add_mod, Nat.mod_eq_of_lt ht]
    show (b * 256 ^ t.length + fromBeBytes t) / 256 ^ t.length ::
        beBytesN t.length ((b * 256 ^ t.length + fromBeBytes t) % 256 ^ t.length) = b :: t
    rw [hhead, htail, ih htb]

theorem beBytesN_bytes_lt :
    ∀ S v, v < 256 ^ S → ∀ b ∈ beBytesN S v, b < 256 := by
  intro S
  induction S with
  | zero => intro v _ b hb; simp [beBytesN] at hb
  | succ n ih =>
    intro v hv b hb
    simp only [beBytesN, List.mem_cons] at hb
    rcases hb with h | h
    · subst h
      rw [Nat.div_lt_iff_lt_mul (by positivity : (0:ℕ) < 256 ^ n)]
      calc v < 256 ^ (n + 1) := hv
        _ = 256 * 256 ^ n := by ring
    · exact ih _ (Nat.mod_lt _ (by positivity)) b h

theorem fixed_be_bytes_eq (S v : ℕ) (hS : S ≤ 32) :
    fixed_be_bytes S v = List.replicate (32 - S) 0 ++ beBytesN S v := by
  unfold fixed_be_bytes copyFromSlice
  rw [beBytesN_length, List.take_replicate, List.drop_replicate]
  have h1 : min (32 - S) 32 = 32 - S := by omega
  have h2 : 32 - (32 - S + S) = 0 := by omega
  rw [h1, h2]
  simp

theorem fixed_le_bytes_eq (S v : ℕ) :
    fixed_le_bytes S v = leBytesN S v ++ List.replicate (32 - S) 0 := by
  unfold fixed_le_bytes copyFromSlice
  rw [leBytesN_length, List.take_replicate, List.drop_replicate]
  simp

/-- Claim C6: for every supported width `S < 32` and every value `v` of
that width, `fixed_be_bytes v` is a 32-byte buffer whose last `S` bytes
are the big-endian encoding of `v` and whose first `32 - S` bytes are
zero, and `fixed_le_bytes v` is a 32-byte buffer whose first `S` bytes
are the little-endian encoding of `v` and whose last `32 - S` bytes are
zero. -/
theorem fixed_bytes_padding (S v : ℕ)
    (hS : S ∈ ([2, 4, 8, 16] : List ℕ)) (hv : v < 256 ^ S) :
    (fixed_be_bytes S v).length = 32 ∧
    List.take (32 - S) (fixed_be_bytes S v) = List.replicate (32 - S) 0 ∧
    List.drop (32 - S) (fixed_be_bytes S v) = beBytesN S v ∧
    (fixed_le_bytes S v).length = 32 ∧
    List.take S (fixed_le_bytes S v) = leBytesN S v ∧
    List.drop S (fixed_le_bytes S v) = List.replicate (32 - S) 0 := by
  have hS32 : S ≤ 32 := by fin_cases hS <;> norm_num
  rw [fixed_be_bytes_eq S v hS32, fixed_le_bytes_eq S v]
  refine ⟨?_, ?_, ?_, ?_, ?_, ?_⟩
  · simp [beBytesN_length]
    omega
  · rw [List.take_left' (by simp)]
  · rw [List.drop_left' (by simp)]
  · simp [leBytesN_length]
    omega
  · rw [List.take_left' (leBytesN_length S v)]
  · rw [List.drop_left' (leBytesN_length S v)]

/-- Witness for C6 at width `S = 4`, value `v = 10`. -/
theorem fixed_bytes_padding_witness :
    List.drop 28 (fixed_be_bytes 4 10) = beBytesN 4 10 :=
  (fixed_bytes_padding 4 10 (by decide) (by norm_num)).2.2.1

/-- Claim C7: for every supported width `S`, the byte conversions
round-trip in both directions: `to_bytes (from_bytes b) = b` for every
`S`-byte array `b`, and `from_bytes (to_bytes v) = v` for every value
`v` of width `S` (both directions are big-endian in `base.rs`). -/
theorem byte_roundtrip (S : ℕ) (hS : S ∈ supportedWidths) :
    (∀ l : List ℕ, l.length = S → (∀ b ∈ l, b < 256) →
      beBytesN S (fromBeBytes l) = l) ∧
    (∀ v, v < 256 ^ S → fromBeBytes (beBytesN S v) = v) := by
  refine ⟨?_, fun v hv => fromBe_beBytesN S v hv⟩
  intro l hl hb
  rw [← hl]
  exact beBytesN_fromBe l hb

/-- Witness for C7 at width `S = 2`, byte array `[1, 2]`. -/
theorem byte_roundtrip_witness :
    beBytesN 2 (fromBeBytes [1, 2]) = [1, 2] :=
  (byte_roundtrip 2 (by decide)).1 [1, 2] rfl (by decide)

/-- Claim C8 as stated is false on the code: at the 2-byte width with
`a = 32768` and `b = 2` (both in range, `b ≠ 0`), the wrapped product
`a * b` is `0`, so `(a * b) / b = 0 ≠ a`. -/
theorem arith_agreement_counterexample :
    32768 < 256 ^ 2 ∧ 2 < 256 ^ 2 ∧ (2 : ℕ) ≠ 0 ∧
    Uint.div 2 (Uint.mul 2 32768 2) 2 ≠ 32768 := by
  decide

/-- Claim C8 (amended): for all `a, b` of a supported width,
`(a + b) - b = a`; and `(a * b) / b = a` when `b ≠ 0` and the product
`a * b` does not wrap around the width. -/
theorem arith_agreement_amended (S a b : ℕ) (hS : S ∈ supportedWidths)
    (ha : a < 256 ^ S) (hb : b < 256 ^ S) :
    Uint.sub S (Uint.add S a b) b = a ∧
    (b ≠ 0 → a * b < 256 ^ S → Uint.div S (Uint.mul S a b) b = a) := by
  constructor
  · unfold Uint.add Uint.sub
    rw [Nat.mod_add_mod]
    have h1 : a + b + (256 ^ S - b) = a + 256 ^ S := by omega
    rw [h1, Nat.add_mod_right, Nat.mod_eq_of_lt ha]
  · intro hb0 hab
    unfold Uint.mul Uint.div
    rw [Nat.mod_eq_of_lt hab, Nat.mul_div_cancel _ (Nat.pos_of_ne_zero hb0)]

/-- Witness for the amended C8 at width `S = 2`, `a = 3`, `b = 5`. -/
theorem arith_agreement_amended_witness :
    Uint.sub 2 (Uint.add 2 3 5) 5 = 3 :=
  (arith_agreement_amended 2 3 5 (by decide) (by norm_num) (by norm_num)).1

/-- Claim C9 as stated is false on the code: the i32 conversion for the
2-byte width truncates, so the host value `65536` does not survive the
round trip i32 → B16 → i32 (it comes back as `0`). -/
theorem conversion_bijection_counterexample :
    to_i32 2 (from_i32 2 65536) ≠ 65536 := by
  decide

/-- Claim C9 (amended): the conversions between a supported fixed width
and the host types `usize`, `u64`, `i32` round-trip exactly on the
values representable in both types (nonnegative and below both the
width bound `256 ^ S` and the host bound `2 ^ 64` resp. `2 ^ 31`);
outside that range the truncating casts lose information. -/
theorem conversion_roundtrip_amended (S : ℕ) (hS : S ∈ supportedWidths) :
    (∀ n : ℕ, n < 256 ^ S → n < 2 ^ 64 → from_usize S (to_usize S n) = n) ∧
    (∀ u : ℕ, u < 256 ^ S → u < 2 ^ 64 → to_usize S (from_usize S u) = u) ∧
    (∀ n : ℕ, n < 256 ^ S → n < 2 ^ 64 → from_u64 S (to_u64 S n) = n) ∧
    (∀ u : ℕ, u < 256 ^ S → u < 2 ^ 64 → to_u64 S (from_u64 S u) = u) ∧
    (∀ n : ℕ, n < 256 ^ S → n < 2 ^ 31 → from_i32 S (to_i32 S n) = n) ∧
    (∀ v : ℤ, 0 ≤ v → v < 256 ^ S → v < 2 ^ 31 → to_i32 S (from_i32 S v) = v) := by
  have husize : ∀ u : ℕ, u < 256 ^ S → u < 2 ^ 64 → from_usize S u = u := by
    intro u hu h64
    unfold from_usize
    by_cases h32 : S = 32
    · rw [if_pos h32, Nat.mod_eq_of_lt (by omega)]
    · rw [if_neg h32, Nat.mod_eq_of_lt hu]
  have hu64 : ∀ u : ℕ, u < 256 ^ S → u < 2 ^ 64 → from_u64 S u = u := by
    intro u hu h64
    unfold from_u64
    by_cases h32 : S = 32
    · rw [if_pos h32, Nat.mod_eq_of_lt (by omega)]
    · rw [if_neg h32, Nat.mod_eq_of_lt hu]
  refine ⟨?_, ?_, ?_, ?_, ?_, ?_⟩
  · intro n hn h64
    unfold to_usize
    rw [Nat.mod_eq_of_lt h64]
    exact husize n hn h64
  · intro u hu h64
    rw [husize u hu h64]
    unfold to_usize
    exact Nat.mod_eq_of_lt h64
  · intro n hn h64
    unfold to_u64
    rw [Nat.mod_eq_of_lt h64]
    exact hu64 n hn h64
  · intro u hu h64
    rw [hu64 u hu h64]
    unfold to_u64
    exact Nat.mod_eq_of_lt h64
  · intro n hn h31
    have hto : to_i32 S n = (n : ℤ) := by
      unfold to_i32
      rw [if_pos (show n % 2 ^ 32 < 2 ^ 31 by omega)]
      rw [Int.emod_eq_of_lt (Int.natCast_nonneg n)
        (by exact_mod_cast (by omega : n < 2 ^ 32))]
    rw [hto]
    unfold from_i32
    by_cases hS32 : S = 32
    · rw [if_pos hS32, Int.emod_eq_of_lt (Int.natCast_nonneg n)
        (by exact_mod_cast (by omega : n < 2 ^ 128))]
      exact Int.toNat_natCast n
    · rw [if_neg hS32, Int.emod_eq_of_lt (Int.natCast_nonneg n)
        (by exact_mod_cast hn)]
      exact Int.toNat_natCast n
  · intro v hv0 hvS hv31
    have hfrom : from_i32 S v = v.toNat := by
      unfold from_i32
      by_cases hS32 : S = 32
      · rw [if_pos hS32, Int.emod_eq_of_lt hv0 (by omega)]
      · rw [if_neg hS32, Int.emod_eq_of_lt hv0 hvS]
    rw [hfrom]
    unfold to_i32
    rw [if_pos (show v.toNat % 2 ^ 32 < 2 ^ 31 by omega)]
    have hm : v.toNat % 2 ^ 32 = v.toNat := Nat.mod_eq_of_lt (by omega)
    rw [Int.emod_eq_of_lt (Int.natCast_nonneg v.toNat)
      (by exact_mod_cast (by omega : v.toNat < 2 ^ 32))]
    omega

/-- Witness for the amended C9 at width `S = 2`, value `5`. -/
theorem conversion_roundtrip_amended_witness :
    from_usize 2 (to_usize 2 5) = 5 :=
  (conversion_roundtrip_amended 2 (by decide)).1 5 (by norm_num) (by norm_num)

/-- Claim C10: for every supported width `S` and every value `v` of that
width, `fixed_le_bytes v` is exactly the byte-reversal of
`fixed_be_bytes v`. -/
theorem fixed_le_eq_reverse_fixed_be (S v : ℕ) (hS : S ∈ supportedWidths)
    (hv : v < 256 ^ S) :
    fixed_le_bytes S v = (fixed_be_bytes S v).reverse := by
  have hS32 : S ≤ 32 := by fin_cases hS <;> norm_num
  rw [fixed_be_bytes_eq S v hS32, fixed_le_bytes_eq S v,
    List.reverse_append, List.reverse_replicate,
    beBytesN_eq_reverse_leBytesN S v hv, List.reverse_reverse]

/-- Witness for C10 at width `S = 2`, value `v = 258`. -/
theorem fixed_le_eq_reverse_fixed_be_witness :
    fixed_le_bytes 2 258 = (fixed_be_bytes 2 258).reverse :=
  fixed_le_eq_reverse_fixed_be 2 258 (by decide) (by norm_num)

theorem findFirstDiff_spec {F : Type} [Field F] [DecidableEq F] :
    ∀ (a b : List F) (i : ℕ), a.length = b.length → a ≠ b →
      ∃ k, k < a.length ∧ List.take k a = List.take k b ∧
        a.getD k 0 ≠ b.getD k 0 ∧
        findFirstDiff i a b = some (i + k, a.getD k 0, b.getD k 0) := by
  intro a
  induction a with
  | nil =>
    intro b i hlen hne
    cases b with
    | nil => exact absurd rfl hne
    | cons y ys => simp at hlen
  | cons x xs ih =>
    intro b i hlen hne
    cases b with
    | nil => simp at hlen
    | cons y ys =>
      by_cases hxy : x = y
      · subst hxy
        have hne' : xs ≠ ys := fun h => hne (by rw [h])
        have hlen' : xs.length = ys.length := by simpa using hlen
        obtain ⟨k, hk, htake, hget, hfind⟩ := ih ys (i + 1) hlen' hne'
        refine ⟨k + 1, by simpa using Nat.succ_lt_succ hk, ?_, ?_, ?_⟩
        · simpa [List.take_succ_cons] using htake
        · simpa using hget
        · have hstep : findFirstDiff i (x :: xs) (x :: ys) =
              findFirstDiff (i + 1) xs ys := by
            simp [findFirstDiff]
          rw [hstep, hfind, show i + (k + 1) = i + 1 + k by omega]
          simp [List.getD_cons_succ]
      · refine ⟨0, ?_, ?_, ?_, ?_⟩
        · simp
        · simp
        · simpa using hxy
        · simp [findFirstDiff, hxy]

theorem findFirstDiff_self {F : Type} [Field F] [DecidableEq F] :
    ∀ (a : List F) (i : ℕ), findFirstDiff i a a = none := by
  intro a
  induction a with
  | nil => intro i; rfl
  | cons x xs ih => intro i; simp [findFirstDiff, ih]

/-- Claim C1: for every trace record at offset `i ≥ 1`, the witness
assignment scans the 8 time limbs from index 0 to index 7, takes
`index` to be the first position where the current record's time limb
differs from the previous record's, witnesses
`difference = cur[index] - prev[index]` computed in the field, and
certifies that the difference is nonzero by also witnessing its
multiplicative inverse. -/
theorem assign_scans_first_difference {F : Type} [Field F] [DecidableEq F]
    (cfgTest : Bool) (trace : List (ConvertedTraceRecord F)) (offset : ℕ)
    (hoff : 1 ≤ offset) (hrange : offset < trace.length)
    (hc8 : (trace.getD offset dummyRecord).time_log.length = 8)
    (hp8 : (trace.getD (offset - 1) dummyRecord).time_log.length = 8)
    (hne : (trace.getD offset dummyRecord).time_log ≠
      (trace.getD (offset - 1) dummyRecord).time_log) :
    ∃ row g k,
      original_memory_assign cfgTest trace offset = AssignResult.ok row ∧
      row.greater_than = some g ∧
      k < 8 ∧
      List.take k (trace.getD offset dummyRecord).time_log =
        List.take k (trace.getD (offset - 1) dummyRecord).time_log ∧
      (trace.getD offset dummyRecord).time_log.getD k 0 ≠
        (trace.getD (offset - 1) dummyRecord).time_log.getD k 0 ∧
      g.first_difference_limb = k ∧
      g.difference = (trace.getD offset dummyRecord).time_log.getD k 0 -
        (trace.getD (offset - 1) dummyRecord).time_log.getD k 0 ∧
      g.difference ≠ 0 ∧
      g.difference * g.difference_inverse = 1 := by
  obtain ⟨k, hk, htake, hget, hfind⟩ :=
    findFirstDiff_spec (trace.getD offset dummyRecord).time_log
      (trace.getD (offset - 1) dummyRecord).time_log 0 (by rw [hc8, hp8]) hne
  have hd0 : (trace.getD offset dummyRecord).time_log.getD k 0 -
      (trace.getD (offset - 1) dummyRecord).time_log.getD k 0 ≠ 0 :=
    sub_ne_zero_of_ne hget
  have hres : original_memory_assign cfgTest trace offset = AssignResult.ok
      { address := (trace.getD offset dummyRecord).address,
        time_log := (trace.getD offset dummyRecord).time_log,
        instruction := (trace.getD offset dummyRecord).instruction,
        value := (trace.getD offset dummyRecord).value,
        selector_zero := false, selector := 1,
        greater_than := some
          ⟨(trace.getD offset dummyRecord).time_log.getD k 0 -
              (trace.getD (offset - 1) dummyRecord).time_log.getD k 0,
            ((trace.getD offset dummyRecord).time_log.getD k 0 -
              (trace.getD (offset - 1) dummyRecord).time_log.getD k 0)⁻¹,
            0 + k⟩ } := by
    unfold original_memory_assign
    rw [if_neg (by omega : ¬ offset = 0)]
    simp only [hfind]
    rw [if_neg hd0]
  refine ⟨_, _, k, hres, rfl, by omega, htake, hget, Nat.zero_add k, rfl,
    hd0, mul_inv_cancel₀ hd0⟩

/-- Witness for C1: a two-record trace over `ℚ` whose time limbs differ
in the last position; the assignment at offset 1 produces the
first-difference witness. -/
theorem assign_scans_first_difference_witness :
    ∃ row g k,
      original_memory_assign (F := ℚ) false
          [⟨List.replicate 32 0, List.replicate 8 0, 1, List.replicate 32 63⟩,
            ⟨List.replicate 32 0, [0, 0, 0, 0, 0, 0, 0, 1], 1,
              List.replicate 32 63⟩] 1 = AssignResult.ok row ∧
      row.greater_than = some g ∧
      k < 8 ∧
      List.take k ((([⟨List.replicate 32 0, List.replicate 8 0, 1,
            List.replicate 32 63⟩,
          ⟨List.replicate 32 0, [0, 0, 0, 0, 0, 0, 0, 1], 1,
            List.replicate 32 63⟩] :
          List (ConvertedTraceRecord ℚ)).getD 1 dummyRecord).time_log) =
        List.take k ((([⟨List.replicate 32 0, List.replicate 8 0, 1,
            List.replicate 32 63⟩,
          ⟨List.replicate 32 0, [0, 0, 0, 0, 0, 0, 0, 1], 1,
            List.replicate 32 63⟩] :
          List (ConvertedTraceRecord ℚ)).getD 0 dummyRecord).time_log) ∧
      ((([⟨List.replicate 32 0, List.replicate 8 0, 1, List.replicate 32 63⟩,
          ⟨List.replicate 32 0, [0, 0, 0, 0, 0, 0, 0, 1], 1,
            List.replicate 32 63⟩] :
          List (ConvertedTraceRecord ℚ)).getD 1 dummyRecord).time_log.getD k 0 ≠
        (([⟨List.replicate 32 0, List.replicate 8 0, 1, List.replicate 32 63⟩,
          ⟨List.replicate 32 0, [0, 0, 0, 0, 0, 0, 0, 1], 1,
            List.replicate 32 63⟩] :
          List (ConvertedTraceRecord ℚ)).getD 0 dummyRecord).time_log.getD k 0) ∧
      g.first_difference_limb = k ∧
      g.difference = (([⟨List.replicate 32 0, List.replicate 8 0, 1,
            List.replicate 32 63⟩,
          ⟨List.replicate 32 0, [0, 0, 0, 0, 0, 0, 0, 1], 1,
            List.replicate 32 63⟩] :
          List (ConvertedTraceRecord ℚ)).getD 1 dummyRecord).time_log.getD k 0 -
        (([⟨List.replicate 32 0, List.replicate 8 0, 1, List.replicate 32 63⟩,
          ⟨List.replicate 32 0, [0, 0, 0, 0, 0, 0, 0, 1], 1,
            List.replicate 32 63⟩] :
          List (ConvertedTraceRecord ℚ)).getD 0 dummyRecord).time_log.getD k 0 ∧
      g.difference ≠ 0 ∧
      g.difference * g.difference_inverse = 1 :=
  assign_scans_first_difference false
    [⟨List.replicate 32 0, List.replicate 8 0, 1, List.replicate 32 63⟩,
      ⟨List.replicate 32 0, [0, 0, 0, 0, 0, 0, 0, 1], 1, List.replicate 32 63⟩]
    1 (by norm_num) (by norm_num) (by rfl) (by rfl) (by decide)

/-- Claim C3: when two consecutive records have equal `time_log` limb
arrays, the assignment fails hard — it panics (under `cfg!(test)` via
the failed `invert().expect`, otherwise via the `find_result.expect`)
and never produces a witness row or a recoverable `Err`. -/
theorem assign_equal_time_panics {F : Type} [Field F] [DecidableEq F]
    (cfgTest : Bool) (trace : List (ConvertedTraceRecord F)) (offset : ℕ)
    (hoff : 1 ≤ offset) (hrange : offset < trace.length)
    (heq : (trace.getD offset dummyRecord).time_log =
      (trace.getD (offset - 1) dummyRecord).time_log) :
    (∃ msg, original_memory_assign cfgTest trace offset =
      AssignResult.panic msg) ∧
    (∀ row, original_memory_assign cfgTest trace offset ≠
      AssignResult.ok row) ∧
    (∀ e, original_memory_assign cfgTest trace offset ≠
      AssignResult.err e) := by
  have hfind : findFirstDiff 0 (trace.getD offset dummyRecord).time_log
      (trace.getD (offset - 1) dummyRecord).time_log = none := by
    rw [heq]
    exact findFirstDiff_self _ 0
  have hres : original_memory_assign cfgTest trace offset =
      AssignResult.panic (if cfgTest then "cannot find inverse"
        else "two trace records cannot have equal time log") := by
    unfold original_memory_assign
    rw [if_neg (by omega : ¬ offset = 0)]
    simp only [hfind]
    by_cases hc : cfgTest <;> simp [hc]
  rw [hres]
  refine ⟨⟨_, rfl⟩, ?_, ?_⟩ <;> intro x h <;> exact AssignResult.noConfusion h

/-- Witness for C3: a two-record trace over `ℚ` with identical time
limbs; the assignment at offset 1 panics and yields no witness row. -/
theorem assign_equal_time_panics_witness :
    (∃ msg, original_memory_assign (F := ℚ) true
        [⟨List.replicate 32 0, List.replicate 8 0, 1, List.replicate 32 63⟩,
          ⟨List.replicate 32 0, List.replicate 8 0, 1, List.replicate 32 63⟩]
        1 = AssignResult.panic msg) ∧
    (∀ row, original_memory_assign (F := ℚ) true
        [⟨List.replicate 32 0, List.replicate 8 0, 1, List.replicate 32 63⟩,
          ⟨List.replicate 32 0, List.replicate 8 0, 1, List.replicate 32 63⟩]
        1 ≠ AssignResult.ok row) ∧
    (∀ e, original_memory_assign (F := ℚ) true
        [⟨List.replicate 32 0, List.replicate 8 0, 1, List.replicate 32 63⟩,
          ⟨List.replicate 32 0, List.replicate 8 0, 1, List.replicate 32 63⟩]
        1 ≠ AssignResult.err e) :=
  assign_equal_time_panics true
    [⟨List.replicate 32 0, List.replicate 8 0, 1, List.replicate 32 63⟩,
      ⟨List.replicate 32 0, List.replicate 8 0, 1, List.replicate 32 63⟩]
    1 (by norm_num) (by norm_num) (by rfl)

theorem foldl_horner_cast {F : Type} [Field F] :
    ∀ (t : List ℕ) (a : ℕ),
      List.foldl (fun acc x => acc * (256 : F) + x) ((a : ℕ) : F)
          (t.map (Nat.cast : ℕ → F)) =
        ((List.foldl (fun acc x => acc * 256 + x) a t : ℕ) : F) := by
  intro t
  induction t with
  | nil => intro a; simp
  | cons b bs ih =>
    intro a
    simp only [List.map_cons, List.foldl_cons]
    rw [show ((a : ℕ) : F) * (256 : F) + ((b : ℕ) : F) =
      (((a * 256 + b : ℕ) : ℕ) : F) by push_cast; ring]
    exact ih (a * 256 + b)

theorem hornerTime_cast {F : Type} [Field F] (l : List ℕ) :
    hornerTime (l.map (Nat.cast : ℕ → F)) = ((fromBeBytes l : ℕ) : F) := by
  cases l with
  | nil => simp [hornerTime, fromBeBytes]
  | cons h t =>
    show List.foldl (fun acc x => acc * (256 : F) + x) ((h : ℕ) : F)
        (t.map (Nat.cast : ℕ → F)) = _
    rw [foldl_horner_cast t h]
    congr 1
    show List.foldl (fun acc x => acc * 256 + x) h t = fromBeBytes (h :: t)
    have hfb : fromBeBytes (h :: t) =
        List.foldl (fun acc x => acc * 256 + x) (0 * 256 + h) t := rfl
    rw [hfb]
    norm_num

theorem hornerTime_timeLimbs {F : Type} [Field F] (L m : ℕ)
    (hm : m < 256 ^ L) : hornerTime (timeLimbs F L m) = (m : F) := by
  unfold timeLimbs
  rw [hornerTime_cast, fromBe_beBytesN L m hm]

theorem assign_selector_zero_at_zero {F : Type} [Field F] [DecidableEq F]
    (cfgTest : Bool) (trace : List (ConvertedTraceRecord F))
    (row : RowWitness F)
    (hok : original_memory_assign cfgTest trace 0 = AssignResult.ok row) :
    row.selector_zero = true := by
  unfold original_memory_assign at hok
  rw [if_pos rfl] at hok
  cases hok
  rfl

theorem assign_selector_zero_at_pos {F : Type} [Field F] [DecidableEq F]
    (cfgTest : Bool) (trace : List (ConvertedTraceRecord F)) (offset : ℕ)
    (row : RowWitness F) (h0 : offset ≠ 0)
    (hok : original_memory_assign cfgTest trace offset = AssignResult.ok row) :
    row.selector_zero = false := by
  unfold original_memory_assign at hok
  rw [if_neg h0] at hok
  rcases hfd : findFirstDiff 0 (trace.getD offset dummyRecord).time_log
      (trace.getD (offset - 1) dummyRecord).time_log with _ | ⟨i, c, p⟩
  · simp only [hfd] at hok
    by_cases hc : cfgTest <;> simp [hc] at hok
  · simp only [hfd] at hok
    by_cases hd : c - p = 0
    · rw [if_pos hd] at hok
      cases hok
    · rw [if_neg hd] at hok
      cases hok
      rfl

/-- Claim C2: the ordering circuit's boundary gate is active only at
offset 0 and recombines the first record's 8 time limbs big-endian as
the sum of `time_limb[i] * 256 ^ (7 - i)` (Horner form in the source),
asserting the result is zero; consequently a trace whose first record
has a nonzero (8-byte) time makes the gate unsatisfiable. -/
theorem boundary_gate_zero_start {F : Type} [Field F] [DecidableEq F] :
    (∀ l0 l1 l2 l3 l4 l5 l6 l7 : F,
      hornerTime [l0, l1, l2, l3, l4, l5, l6, l7] =
        l0 * 256 ^ 7 + l1 * 256 ^ 6 + l2 * 256 ^ 5 + l3 * 256 ^ 4 +
          l4 * 256 ^ 3 + l5 * 256 ^ 2 + l6 * 256 + l7) ∧
    (∀ (cfgTest : Bool) (trace : List (ConvertedTraceRecord F)) (offset : ℕ)
        (row : RowWitness F),
      original_memory_assign cfgTest trace offset = AssignResult.ok row →
      (row.selector_zero = true ↔ offset = 0)) ∧
    (∀ m : ℕ, (∀ n : ℕ, n < 2 ^ 64 → (n : F) = 0 → n = 0) →
      m < 2 ^ 64 → m ≠ 0 → hornerTime (timeLimbs F 8 m) ≠ 0) := by
  refine ⟨?_, ?_, ?_⟩
  · intro l0 l1 l2 l3 l4 l5 l6 l7
    show List.foldl (fun acc t => acc * (256 : F) + t) l0
        [l1, l2, l3, l4, l5, l6, l7] = _
    simp only [List.foldl_cons, List.foldl_nil]
    ring
  · intro cfgTest trace offset row hok
    by_cases h0 : offset = 0
    · subst h0
      simp [assign_selector_zero_at_zero cfgTest trace row hok]
    · simp [assign_selector_zero_at_pos cfgTest trace offset row h0 hok, h0]
  · intro m hinj hm hm0
    have h256 : (256 : ℕ) ^ 8 = 2 ^ 64 := by norm_num
    rw [hornerTime_timeLimbs 8 m (by omega)]
    intro h0
    exact hm0 (hinj m hm h0)

/-- Witness for C2 over `ℚ`: the boundary gate value of a first record
with time 1 is nonzero. -/
theorem boundary_gate_zero_start_witness :
    hornerTime (timeLimbs ℚ 8 1) ≠ 0 :=
  (boundary_gate_zero_start (F := ℚ)).2.2 1
    (fun n _ h => Nat.cast_eq_zero.mp h) (by norm_num) one_ne_zero

theorem timeLimbs_succ_limb {F : Type} [Field F] (n m : ℕ) :
    timeLimbs F (n + 1) m =
      ((m / 256 ^ n : ℕ) : F) :: timeLimbs F n (m % 256 ^ n) := rfl

theorem gtCertL_timeLimbs_succ {F : Type} [Field F] :
    ∀ L m : ℕ, 1 ≤ L → gtCertL L (timeLimbs F L m) (timeLimbs F L (m + 1)) := by
  intro L
  induction L with
  | zero => intro m h; omega
  | succ n ih =>
    intro m _
    have hW : 0 < (256 : ℕ) ^ n := by positivity
    have hdm := Nat.div_add_mod m (256 ^ n)
    rw [timeLimbs_succ_limb, timeLimbs_succ_limb]
    by_cases hcarry : m % 256 ^ n = 256 ^ n - 1
    · have hm1 : m + 1 = 256 ^ n * (m / 256 ^ n + 1) := by
        rw [Nat.mul_add, Nat.mul_one]
        omega
      have hdiv : (m + 1) / 256 ^ n = m / 256 ^ n + 1 := by
        rw [hm1, Nat.mul_div_cancel_left _ hW]
      have hone : (((m + 1) / 256 ^ n : ℕ) : F) - ((m / 256 ^ n : ℕ) : F) = 1 := by
        rw [hdiv]
        push_cast
        ring
      refine ⟨0, by omega, by simp, ?_, 1, by norm_num, ?_⟩
      · simp only [List.getD_cons_zero]
        rw [hone]
        exact one_ne_zero
      · simp only [List.getD_cons_zero]
        rw [hone]
        norm_num
    · have hmodlt : m % 256 ^ n < 256 ^ n := Nat.mod_lt m hW
      have hn1 : 1 ≤ n := by
        rcases Nat.eq_zero_or_pos n with h | h
        · subst h
          simp [Nat.mod_one] at hcarry
        · exact h
      have hr1 : m % 256 ^ n + 1 < 256 ^ n := by omega
      have hm1 : m + 1 = 256 ^ n * (m / 256 ^ n) + (m % 256 ^ n + 1) := by
        omega
      have hdiv : (m + 1) / 256 ^ n = m / 256 ^ n := by
        rw [hm1, Nat.mul_add_div hW, Nat.div_eq_of_lt hr1, Nat.add_zero]
      have hmod1 : (m + 1) % 256 ^ n = m % 256 ^ n + 1 := by
        rw [hm1, Nat.mul_add_mod, Nat.mod_eq_of_lt hr1]
      rw [hdiv, hmod1]
      obtain ⟨k, hk, htake, hne, d, hd, hcast⟩ := ih (m % 256 ^ n) hn1
      refine ⟨k + 1, by omega, ?_, ?_, d, hd, ?_⟩
      · simp only [List.take_succ_cons]
        rw [htake]
      · simpa [List.getD_cons_succ] using hne
      · simpa [List.getD_cons_succ] using hcast

theorem validTrace_range {F : Type} [Field F] (N : ℕ) (hN : 1 ≤ N) :
    validTrace ((List.range N).map (fun i => timeLimbs F 8 i)) := by
  obtain ⟨M, rfl⟩ : ∃ M, N = M + 1 := ⟨N - 1, by omega⟩
  constructor
  · rw [List.range_succ_eq_map]
    show hornerTime (timeLimbs F 8 0) = 0
    rw [hornerTime_timeLimbs 8 0 (by positivity)]
    exact Nat.cast_zero
  · rw [List.chain'_map, List.chain'_range_succ]
    intro i _
    exact gtCertL_timeLimbs_succ 8 i (by norm_num)

/-- Claim C5: for every `N ≥ 1` a trace whose time logs are
`0, 1, …, N - 1` is satisfiable by the ordering circuit (boundary gate
plus the spec-modelled greater-than certificate between consecutive
records); and a single-record trace exercises only the boundary gate,
so it is valid iff its time is zero. -/
theorem ordering_circuit_acceptance {F : Type} [Field F]
    (hinj : ∀ n : ℕ, n < 2 ^ 64 → (n : F) = 0 → n = 0) :
    (∀ N : ℕ, 1 ≤ N →
      validTrace ((List.range N).map (fun i => timeLimbs F 8 i))) ∧
    (∀ m : ℕ, m < 2 ^ 64 → (validTrace [timeLimbs F 8 m] ↔ m = 0)) := by
  refine ⟨fun N hN => validTrace_range N hN, ?_⟩
  intro m hm
  have h256 : (256 : ℕ) ^ 8 = 2 ^ 64 := by norm_num
  constructor
  · rintro ⟨hb, _⟩
    have hb' : hornerTime (timeLimbs F 8 m) = 0 := hb
    have hh : hornerTime (timeLimbs F 8 m) = (m : F) :=
      hornerTime_timeLimbs 8 m (by omega)
    exact hinj m hm (by rw [← hh]; exact hb')
  · rintro rfl
    refine ⟨?_, List.chain'_singleton _⟩
    show hornerTime (timeLimbs F 8 0) = 0
    rw [hornerTime_timeLimbs 8 0 (by positivity)]
    exact Nat.cast_zero

/-- Witness for C5 over `ℚ`: the two-record trace with times `0, 1` is
accepted. -/
theorem ordering_circuit_acceptance_witness :
    validTrace ((List.range 2).map (fun i => timeLimbs ℚ 8 i)) :=
  (ordering_circuit_acceptance (F := ℚ)
    (fun n _ h => Nat.cast_eq_zero.mp h)).1 2 (by norm_num)

theorem writeMem_read_back (W : ℕ) (mem : MemState) (addr v : ℕ)
    (hv : v < 256 ^ W) : readMem W (writeMem W mem addr v) addr = v := by
  unfold readMem
  have hmap : (List.range W).map (fun i => writeMem W mem addr v (addr + i)) =
      beBytesN W v := by
    apply List.ext_getElem
    · simp [beBytesN_length]
    · intro i h1 h2
      simp only [List.getElem_map, List.getElem_range]
      have hiW : i < W := by simpa using h1
      unfold writeMem
      rw [if_pos ⟨Nat.le_add_right addr i, by omega⟩, Nat.add_sub_cancel_left]
      exact List.getD_eq_getElem (beBytesN W v) 0
        (by rw [beBytesN_length]; exact hiW)
  rw [hmap]
  exact fromBe_beBytesN W v hv

set_option maxRecDepth 100000 in
/-- Claim C4: a write stores the big-endian byte decomposition at
consecutive offsets and a read gathers and recombines them (unobserved
bytes are zero), with no alignment requirement; in particular, with
32-byte words, writing 32 bytes of `0x05` at address 0 then 32 bytes of
`0x0A` at address 32 makes a read at address 15 return 17 bytes of
`0x05` followed by 15 bytes of `0x0A`. -/
theorem ram_unaligned_access :
    (∀ (W : ℕ) (mem : MemState) (addr v : ℕ), v < 256 ^ W →
      readMem W (writeMem W mem addr v) addr = v) ∧
    readMem 32
        (writeMem 32
          (writeMem 32 emptyMem 0 (fromBeBytes (List.replicate 32 5)))
          32 (fromBeBytes (List.replicate 32 10))) 15 =
      fromBeBytes (List.replicate 17 5 ++ List.replicate 15 10) := by
  refine ⟨fun W mem addr v hv => writeMem_read_back W mem addr v hv, ?_⟩
  decide

/-- Witness for C4: reading back a 2-byte word written at address 3. -/
theorem ram_unaligned_access_witness :
    readMem 2 (writeMem 2 emptyMem 3 517) 3 = 517 :=
  ram_unaligned_access.1 2 emptyMem 3 517 (by norm_num)

end ZkMem
